import Mathlib

/-!
Shallow embedding of the `lock-free-spsc` repository (Rust).

The repository provides two single-producer single-consumer queues:

* `BoundedSpsc<T>` (`src/spsc/bounded_spsc/inner_spsc.rs`): a fixed-capacity
  lock-free ring buffer with indices `next_head` and `tail` over a manually
  allocated `Array<T>` of `capacity` slots.
* `RawSpsc<T>` (`src/spsc/unbounded_spsc/raw_spsc.rs`): an unbounded queue
  built as a singly linked chain of fixed-size (`SEGMENT_SIZE = 128`)
  ring-buffer `Segment<T>` nodes.

The embedding is sequential (one producer, one consumer, operations
interleaved in program order).  Atomic loads/stores of the indices become
plain field reads/writes; a buffer of `MaybeUninit<T>` slots becomes a
`List (Option α)` where `some v` models an initialized slot holding `v` and
`none` models a logically uninitialized slot (`assume_init_read` moves the
value out, so the model clears the slot to `none` on `pop`).  The segment
chain `head -> ... -> tail` of `RawSpsc` is represented by a `List (Segment α)`
whose first element is the segment pointed to by `head` and whose last
element is the segment pointed to by `tail`; the write-once `next_block`
pointers are represented by adjacency in that list.
-/

/-- `Op` is a producer/consumer request issued against a queue. -/
inductive Op (α : Type) where
  | push : α → Op α
  | pop : Op α
deriving DecidableEq, Repr

/-- `Event` is the observable outcome of one `Op`:
`pushOk v` (push accepted), `pushFull v` (bounded push returned `Err(v)`),
`popSome v` (pop returned `Some(v)`), `popNone` (pop returned `None`). -/
inductive Event (α : Type) where
  | pushOk : α → Event α
  | pushFull : α → Event α
  | popSome : α → Event α
  | popNone : Event α
deriving DecidableEq, Repr

/-- Successfully pushed values of a trace, in order. -/
def pushedOk {α : Type} (es : List (Event α)) : List α :=
  es.filterMap (fun e => match e with | Event.pushOk v => some v | _ => none)

/-- Successfully popped values of a trace, in order. -/
def popped {α : Type} (es : List (Event α)) : List α :=
  es.filterMap (fun e => match e with | Event.popSome v => some v | _ => none)

/-! ## Bounded queue (`inner_spsc.rs`) -/

/-- Branch-free wraparound used by `BoundedSpsc::push`, `pop`, `is_full` and
`Drop`: `(i + 1) * (((i + 1) < capacity) as usize)`. -/
def boundedAdvance (i cap : Nat) : Nat :=
  (i + 1) * (if i + 1 < cap then 1 else 0)

/-- Model of `Array<T>` from `inner_spsc.rs`: `capacity` slots of
`MaybeUninit<T>`.  A slot is `some v` when initialized with `v`. -/
structure ArrayT (α : Type) where
  buffer : List (Option α)
  capacity : Nat
deriving DecidableEq, Repr

/-- `Array::insert`: writes `value` into the slot at `index`. -/
def ArrayT.insert {α : Type} (a : ArrayT α) (index : Nat) (value : α) : ArrayT α :=
  ⟨a.buffer.set index (some value), a.capacity⟩

/-- `Array::get`: `assume_init_read` of the slot at `index`; the value is
moved out, so the slot becomes logically uninitialized. -/
def ArrayT.get {α : Type} (a : ArrayT α) (index : Nat) : Option α × ArrayT α :=
  (a.buffer.getD index none, ⟨a.buffer.set index none, a.capacity⟩)

/-- Model of `BoundedSpsc<T>`: the two indices and the backing array. -/
structure BoundedSpsc (α : Type) where
  next_head : Nat
  tail : Nat
  buffer : ArrayT α
deriving DecidableEq, Repr

/-- `BoundedSpsc::new(capacity)`: uninitialized storage, both indices `0`. -/
def BoundedSpsc.new {α : Type} (capacity : Nat) : BoundedSpsc α :=
  ⟨0, 0, ⟨List.replicate capacity none, capacity⟩⟩

/-- `BoundedSpsc::push`: compute `next_head` by the branch-free wraparound;
if it equals `tail` return `Err(value)` without mutation, otherwise write
the value into slot `curr_head` and publish the new `next_head`. -/
def BoundedSpsc.push {α : Type} (q : BoundedSpsc α) (value : α) :
    Except α Unit × BoundedSpsc α :=
  let curr_head := q.next_head
  let next_head := boundedAdvance curr_head q.buffer.capacity
  if next_head = q.tail then
    (Except.error value, q)
  else
    (Except.ok (), { q with buffer := q.buffer.insert curr_head value,
                            next_head := next_head })

/-- `BoundedSpsc::pop`: if `next_head == tail` return `None`, otherwise read
slot `curr_tail` (moving the value out) and advance `tail`. -/
def BoundedSpsc.pop {α : Type} (q : BoundedSpsc α) : Option α × BoundedSpsc α :=
  let curr_tail := q.tail
  if q.next_head = curr_tail then
    (none, q)
  else
    let (value, buffer') := q.buffer.get curr_tail
    let next_tail := boundedAdvance curr_tail q.buffer.capacity
    (value, { q with buffer := buffer', tail := next_tail })

/-- `BoundedSpsc::is_empty`. -/
def BoundedSpsc.is_empty {α : Type} (q : BoundedSpsc α) : Bool :=
  q.next_head = q.tail

/-- `BoundedSpsc::is_full`. -/
def BoundedSpsc.is_full {α : Type} (q : BoundedSpsc α) : Bool :=
  boundedAdvance q.next_head q.buffer.capacity = q.tail

/-- `BoundedSpsc::capacity`. -/
def BoundedSpsc.capacity {α : Type} (q : BoundedSpsc α) : Nat :=
  q.buffer.capacity

/-- Loop body of `impl Drop for BoundedSpsc`: starting at `idx`, destruct
slots until `idx == head`, advancing by the same branch-free wraparound
(`idx += 1; idx *= (idx < capacity)`).  Returns the list of destructed slot
contents in order.  `fuel` bounds the iteration count (the source loop has
no bound; one full ring, `capacity` steps, always suffices to reach `head`
when the indices are in range). -/
def BoundedSpsc.dropLoop {α : Type} (buf : List (Option α)) (head cap : Nat) :
    Nat → Nat → List (Option α)
  | _, 0 => []
  | idx, fuel + 1 =>
    if idx = head then []
    else buf.getD idx none :: BoundedSpsc.dropLoop buf head cap (boundedAdvance idx cap) fuel

/-- Slot contents destructed by `impl Drop for BoundedSpsc`: every slot from
`tail` up to (excluding) `next_head` in ring order. -/
def BoundedSpsc.dropDrained {α : Type} (q : BoundedSpsc α) : List (Option α) :=
  BoundedSpsc.dropLoop q.buffer.buffer q.next_head q.buffer.capacity q.tail q.buffer.capacity

/-- One `Op` against a `BoundedSpsc`, producing the next state and the event. -/
def BoundedSpsc.step {α : Type} (q : BoundedSpsc α) : Op α → BoundedSpsc α × Event α
  | Op.push v =>
    match q.push v with
    | (Except.ok _, q') => (q', Event.pushOk v)
    | (Except.error w, q') => (q', Event.pushFull w)
  | Op.pop =>
    match q.pop with
    | (some v, q') => (q', Event.popSome v)
    | (none, q') => (q', Event.popNone)

/-- Run a sequence of operations against a `BoundedSpsc`, collecting the trace. -/
def BoundedSpsc.run {α : Type} (q : BoundedSpsc α) : List (Op α) → BoundedSpsc α × List (Event α)
  | [] => (q, [])
  | op :: ops =>
    let s := q.step op
    let r := BoundedSpsc.run s.1 ops
    (r.1, s.2 :: r.2)

/-! ## Unbounded queue (`raw_spsc.rs`) -/

/-- `SEGMENT_SIZE` from `raw_spsc.rs`. -/
def SEGMENT_SIZE : Nat := 128

/-- `MASK` from `raw_spsc.rs` (`0x7F`). -/
def MASK : Nat := 0x7F

/-- Mask-based wraparound used by `Segment::push`, `pop` and `Drop`:
`(i + 1) & MASK`. -/
def segAdvance (i : Nat) : Nat := (i + 1) &&& MASK

/-- Model of `Segment<T>`: the two indices and the `SEGMENT_SIZE`-slot buffer
behind `ptr`.  The write-once `next_block` pointer is represented by
adjacency in `RawSpsc.segs`. -/
structure Segment (α : Type) where
  next_head : Nat
  tail : Nat
  ptr : List (Option α)
deriving DecidableEq, Repr

/-- `Segment::new()`: uninitialized `SEGMENT_SIZE`-slot buffer, indices `0`,
null `next_block`. -/
def Segment.new {α : Type} : Segment α :=
  ⟨0, 0, List.replicate SEGMENT_SIZE none⟩

/-- `Segment::push`: mask-based wraparound; `Err(value)` without mutation if
the segment is full, otherwise write into slot `curr_head` and publish. -/
def Segment.push {α : Type} (s : Segment α) (value : α) : Except α Unit × Segment α :=
  let curr_head := s.next_head
  let next_head := segAdvance curr_head
  if next_head = s.tail then
    (Except.error value, s)
  else
    (Except.ok (), { s with ptr := s.ptr.set curr_head (some value),
                            next_head := next_head })

/-- `Segment::pop`: `None` if `next_head == tail`, otherwise
`assume_init_read` slot `curr_tail` (moving the value out) and advance `tail`. -/
def Segment.pop {α : Type} (s : Segment α) : Option α × Segment α :=
  let curr_tail := s.tail
  if s.next_head = curr_tail then
    (none, s)
  else
    let value := s.ptr.getD curr_tail none
    let next_tail := segAdvance curr_tail
    (value, { s with ptr := s.ptr.set curr_tail none, tail := next_tail })

/-- `Segment::link_new_block`: allocates a fresh segment and stores its
address into this segment's `next_block`; in the list model the link is the
position where the caller inserts the returned segment. -/
def Segment.link_new_block {α : Type} : Segment α := Segment.new

/-- `Segment::link_and_push`: link a fresh segment and push `value` into it.
Returns the push result (discarded by the caller, as in the source's
`_ = new_block.push(value)`) together with the new segment. -/
def Segment.link_and_push {α : Type} (value : α) : Except α Unit × Segment α :=
  Segment.push Segment.link_new_block value

/-- Model of `RawSpsc<T>`: the chain of live segments from the one pointed
to by `head` (first element) to the one pointed to by `tail` (last element). -/
structure RawSpsc (α : Type) where
  segs : List (Segment α)
deriving DecidableEq, Repr

/-- `RawSpsc::new()`: a single fresh segment, `head` and `tail` both on it. -/
def RawSpsc.new {α : Type} : RawSpsc α := ⟨[Segment.new]⟩

/-- `RawSpsc::push`: push onto the tail segment; if it is full,
`link_and_push` a fresh segment and advance the `tail` pointer to it. -/
def RawSpsc.push {α : Type} (q : RawSpsc α) (value : α) : RawSpsc α :=
  match q.segs.getLast? with
  | none => q
  | some segment =>
    match segment.push value with
    | (Except.ok _, seg') => ⟨q.segs.dropLast ++ [seg']⟩
    | (Except.error val, _) =>
      let r := Segment.link_and_push val
      ⟨q.segs.dropLast ++ [segment, r.2]⟩

/-- `RawSpsc::pop`: pop from the head segment; on failure, if `head == tail`
the queue is empty, otherwise free the drained head segment, advance `head`
to its `next_block` and retry the pop once on the new head segment. -/
def RawSpsc.pop {α : Type} (q : RawSpsc α) : Option α × RawSpsc α :=
  match q.segs with
  | [] => (none, q)
  | curr_head :: rest =>
    match curr_head.pop with
    | (some val, seg') => (some val, ⟨seg' :: rest⟩)
    | (none, _) =>
      match rest with
      | [] => (none, q)
      | next_segment :: rest' =>
        let r := next_segment.pop
        (r.1, ⟨r.2 :: rest'⟩)

/-- One `Op` against a `RawSpsc` (`push` never fails). -/
def RawSpsc.step {α : Type} (q : RawSpsc α) : Op α → RawSpsc α × Event α
  | Op.push v => (q.push v, Event.pushOk v)
  | Op.pop =>
    match q.pop with
    | (some v, q') => (q', Event.popSome v)
    | (none, q') => (q', Event.popNone)

/-- Run a sequence of operations against a `RawSpsc`, collecting the trace. -/
def RawSpsc.run {α : Type} (q : RawSpsc α) : List (Op α) → RawSpsc α × List (Event α)
  | [] => (q, [])
  | op :: ops =>
    let s := q.step op
    let r := RawSpsc.run s.1 ops
    (r.1, s.2 :: r.2)

/-! ## Ring-buffer abstraction

`pos t n i` is the ring-order position of slot `i` counted from `t` in a
ring of `n` slots; `ringAbs t h n buf` lists the slot contents from `t` up
to (excluding) `h` in ring order.  These are the abstraction functions
relating the code's index pairs to a FIFO list of live values. -/

/-- Ring-order position of index `i` counted from `t`, modulo `n`. -/
def pos (t n i : Nat) : Nat := (i + n - t) % n

/-- Slot `i` lies in the live ring range from `t` up to (excluding) `h`. -/
def inRing (t h n i : Nat) : Prop := pos t n i < pos t n h

instance (t h n i : Nat) : Decidable (inRing t h n i) := by
  unfold inRing; infer_instance

/-- Live slot contents from `t` up to (excluding) `h`, in ring order. -/
def ringAbs {α : Type} (t h n : Nat) (buf : List (Option α)) : List (Option α) :=
  (List.range (pos t n h)).map (fun j => buf.getD ((t + j) % n) none)

/-- Abstraction of a `BoundedSpsc`: its live values in FIFO order. -/
def absQ {α : Type} (q : BoundedSpsc α) : List (Option α) :=
  ringAbs q.tail q.next_head q.buffer.capacity q.buffer.buffer

/-- Abstraction of a `Segment`: its live values in FIFO order. -/
def absSeg {α : Type} (s : Segment α) : List (Option α) :=
  ringAbs s.tail s.next_head SEGMENT_SIZE s.ptr

/-- Abstraction of a `RawSpsc`: live values of all chained segments, head
segment first, in FIFO order. -/
def absU {α : Type} (q : RawSpsc α) : List (Option α) :=
  (q.segs.map absSeg).flatten

/-- Structural invariant of a `BoundedSpsc` reachable from `new n` with
`n ≥ 2`: capacity at least `2`, both indices in range, the buffer has
`capacity` slots, and exactly the slots in the live ring range
`[tail, next_head)` are initialized. -/
def BInv {α : Type} (q : BoundedSpsc α) : Prop :=
  2 ≤ q.buffer.capacity ∧
  q.next_head < q.buffer.capacity ∧
  q.tail < q.buffer.capacity ∧
  q.buffer.buffer.length = q.buffer.capacity ∧
  ∀ i, i < q.buffer.capacity →
    ((q.buffer.buffer.getD i none).isSome = true ↔ inRing q.tail q.next_head q.buffer.capacity i)

instance {α : Type} (q : BoundedSpsc α) : Decidable (BInv q) := by
  unfold BInv; infer_instance

/-- Structural invariant of a single `Segment`: indices in range and a
`SEGMENT_SIZE`-slot buffer. -/
def SegOk {α : Type} (s : Segment α) : Prop :=
  s.next_head < SEGMENT_SIZE ∧ s.tail < SEGMENT_SIZE ∧ s.ptr.length = SEGMENT_SIZE

instance {α : Type} (s : Segment α) : Decidable (SegOk s) := by
  unfold SegOk; infer_instance

/-- Structural invariant of a `RawSpsc` chain: at least one segment, every
segment well formed, and every segment other than the head one non-empty
(a segment is linked only after `link_and_push` deposited a value in it,
and is popped from only once it has become the head segment). -/
def UInv {α : Type} (q : RawSpsc α) : Prop :=
  q.segs ≠ [] ∧ (∀ s ∈ q.segs, SegOk s) ∧ (∀ s ∈ q.segs.tail, absSeg s ≠ [])

instance {α : Type} [DecidableEq α] (q : RawSpsc α) : Decidable (UInv q) := by
  unfold UInv; infer_instance

/-! ## Specification-level queues

Second, spec-side definitions for the refinement claims, following the
spec's words: a bounded FIFO list queue that accepts a push exactly when
fewer than `capacity - 1` values are resident, and an unbounded FIFO list
queue that always accepts a push. -/

/-- Spec-level bounded FIFO queue step (capacity `cap`): push appends unless
`cap - 1` values are resident, pop takes the oldest value. -/
def specStepB {α : Type} (cap : Nat) (l : List α) : Op α → List α × Event α
  | Op.push v =>
    if l.length + 1 = cap then (l, Event.pushFull v) else (l ++ [v], Event.pushOk v)
  | Op.pop =>
    match l with
    | [] => ([], Event.popNone)
    | v :: rest => (rest, Event.popSome v)

/-- Run of the spec-level bounded FIFO queue. -/
def specRunB {α : Type} (cap : Nat) (l : List α) : List (Op α) → List α × List (Event α)
  | [] => (l, [])
  | op :: ops =>
    let s := specStepB cap l op
    let r := specRunB cap s.1 ops
    (r.1, s.2 :: r.2)

/-- Spec-level unbounded FIFO queue step: push always appends, pop takes the
oldest value. -/
def specStepU {α : Type} (l : List α) : Op α → List α × Event α
  | Op.push v => (l ++ [v], Event.pushOk v)
  | Op.pop =>
    match l with
    | [] => ([], Event.popNone)
    | v :: rest => (rest, Event.popSome v)

/-- Run of the spec-level unbounded FIFO queue. -/
def specRunU {α : Type} (l : List α) : List (Op α) → List α × List (Event α)
  | [] => (l, [])
  | op :: ops =>
    let s := specStepU l op
    let r := specRunU s.1 ops
    (r.1, s.2 :: r.2)

/-- Reference wraparound as worded in the spec: if `i + 1 = capacity` wrap
to `0`, else `i + 1`. -/
def specAdvance (i cap : Nat) : Nat :=
  if i + 1 = cap then 0 else i + 1

/-- Abstraction relation: the queue satisfies its structural invariant and
its live contents are exactly the spec-level list. -/
def Rb {α : Type} (q : BoundedSpsc α) (l : List α) : Prop :=
  BInv q ∧ absQ q = l.map some

/-- Abstraction relation for the unbounded queue: structural invariant plus
live contents equal to the spec-level list. -/
def Ru {α : Type} (q : RawSpsc α) (l : List α) : Prop :=
  UInv q ∧ absU q = l.map some

instance {α : Type} [DecidableEq α] (q : RawSpsc α) (l : List α) : Decidable (Ru q l) := by
  unfold Ru; infer_instance

instance {α : Type} [DecidableEq α] (q : BoundedSpsc α) (l : List α) : Decidable (Rb q l) := by
  unfold Rb; infer_instance

/-! ## Arithmetic of ring positions -/

theorem succ_mod_of_lt {m n : Nat} (h : m < n) :
    (m + 1) % n = if m + 1 = n then 0 else m + 1 := by
  split
  · next heq => rw [heq, Nat.mod_self]
  · exact Nat.mod_eq_of_lt (by omega)

theorem pos_eq {t n i : Nat} (ht : t < n) (hi : i < n) :
    pos t n i = if t ≤ i then i - t else i + n - t := by
  unfold pos
  rcases le_or_lt t i with h | h
  · rw [if_pos h, show i + n - t = (i - t) + n by omega, Nat.add_mod_right,
      Nat.mod_eq_of_lt (by omega)]
  · rw [if_neg (by omega), Nat.mod_eq_of_lt (by omega)]

theorem pos_lt {t n i : Nat} (ht : t < n) (hi : i < n) : pos t n i < n := by
  rw [pos_eq ht hi]; split <;> omega

theorem pos_self (t n : Nat) : pos t n t = 0 := by
  unfold pos
  rw [show t + n - t = n by omega, Nat.mod_self]

theorem pos_eq_zero_iff {t n i : Nat} (ht : t < n) (hi : i < n) :
    pos t n i = 0 ↔ i = t := by
  rw [pos_eq ht hi]; split <;> omega

theorem idx_pos {t n i : Nat} (ht : t < n) (hi : i < n) : (t + pos t n i) % n = i := by
  rw [pos_eq ht hi]
  split
  · rw [show t + (i - t) = i by omega]
    exact Nat.mod_eq_of_lt hi
  · rw [show t + (i + n - t) = i + n by omega, Nat.add_mod_right]
    exact Nat.mod_eq_of_lt hi

theorem pos_idx {t n j : Nat} (ht : t < n) (hj : j < n) : pos t n ((t + j) % n) = j := by
  rcases Nat.lt_or_ge (t + j) n with h | h
  · rw [Nat.mod_eq_of_lt h, pos_eq ht h]
    split <;> omega
  · have h2 : t + j - n < n := by omega
    rw [show t + j = (t + j - n) + n by omega, Nat.add_mod_right, Nat.mod_eq_of_lt h2,
      pos_eq ht h2]
    split <;> omega

theorem pos_inj {t n i j : Nat} (ht : t < n) (hi : i < n) (hj : j < n)
    (h : pos t n i = pos t n j) : i = j := by
  have h1 := idx_pos ht hi
  have h2 := idx_pos ht hj
  rw [← h1, ← h2, h]

theorem pos_succ_h {t n h : Nat} (ht : t < n) (hh : h < n) (hne : (h + 1) % n ≠ t) :
    pos t n ((h + 1) % n) = pos t n h + 1 := by
  rw [succ_mod_of_lt hh] at hne ⊢
  by_cases hc : h + 1 = n
  · rw [if_pos hc] at hne ⊢
    rw [pos_eq ht (by omega), pos_eq ht hh]
    split_ifs <;> omega
  · rw [if_neg hc] at hne ⊢
    rw [pos_eq ht (by omega), pos_eq ht hh]
    split_ifs <;> omega

theorem pos_full_iff {t n h : Nat} (ht : t < n) (hh : h < n) :
    (h + 1) % n = t ↔ pos t n h = n - 1 := by
  rw [succ_mod_of_lt hh, pos_eq ht hh]
  by_cases hc : h + 1 = n
  · rw [if_pos hc]; split_ifs <;> omega
  · rw [if_neg hc]; split_ifs <;> omega

theorem pos_succ_t {t n i : Nat} (ht : t < n) (hi : i < n) (hne : i ≠ t) :
    pos ((t + 1) % n) n i = pos t n i - 1 ∧ 1 ≤ pos t n i := by
  by_cases hc : t + 1 = n
  · have e : (t + 1) % n = 0 := by rw [succ_mod_of_lt ht, if_pos hc]
    rw [e, pos_eq (by omega) hi, pos_eq ht hi]
    split_ifs <;> omega
  · have e : (t + 1) % n = t + 1 := by rw [succ_mod_of_lt ht, if_neg hc]
    rw [e, pos_eq (by omega) hi, pos_eq ht hi]
    split_ifs <;> omega

theorem pos_succ_t_self {t n : Nat} (ht : t < n) :
    pos ((t + 1) % n) n t = n - 1 := by
  by_cases hc : t + 1 = n
  · have e : (t + 1) % n = 0 := by rw [succ_mod_of_lt ht, if_pos hc]
    rw [e, pos_eq (by omega) ht]
    split_ifs <;> omega
  · have e : (t + 1) % n = t + 1 := by rw [succ_mod_of_lt ht, if_neg hc]
    rw [e, pos_eq (by omega) ht]
    split_ifs <;> omega

/-! ## List helpers -/

theorem getD_set_self {β : Type} (l : List β) (i : Nat) (v d : β) (h : i < l.length) :
    (l.set i v).getD i d = v := by
  rw [List.getD_eq_getElem?_getD, List.getElem?_set_self (by simpa using h)]
  rfl

theorem getD_set_ne {β : Type} (l : List β) (i j : Nat) (v d : β) (h : i ≠ j) :
    (l.set i v).getD j d = l.getD j d := by
  rw [List.getD_eq_getElem?_getD, List.getD_eq_getElem?_getD, List.getElem?_set_ne h]

/-! ## Structure of `ringAbs` -/

theorem ringAbs_empty {α : Type} (t n : Nat) (buf : List (Option α)) :
    ringAbs t t n buf = [] := by
  unfold ringAbs
  rw [pos_self, List.range_zero, List.map_nil]

theorem ringAbs_length {α : Type} (t h n : Nat) (buf : List (Option α)) :
    (ringAbs t h n buf).length = pos t n h := by
  unfold ringAbs
  rw [List.length_map, List.length_range]

theorem ringAbs_cons {α : Type} {t h n : Nat} (ht : t < n) (hh : h < n) (hne : h ≠ t)
    (buf : List (Option α)) :
    ringAbs t h n buf = buf.getD t none :: ringAbs ((t + 1) % n) h n buf := by
  unfold ringAbs
  obtain ⟨hp, hge⟩ := pos_succ_t ht hh hne
  have hd : pos t n h = (pos ((t + 1) % n) n h) + 1 := by omega
  rw [hd, List.range_succ_eq_map, List.map_cons]
  congr 1
  · rw [Nat.add_zero, Nat.mod_eq_of_lt ht]
  · rw [List.map_map]
    refine List.map_congr_left (fun j hj => ?_)
    simp only [Function.comp_apply, Nat.succ_eq_add_one]
    rw [Nat.mod_add_mod, show t + 1 + j = t + (j + 1) by omega]

theorem ringAbs_snoc {α : Type} {t h n : Nat} (ht : t < n) (hh : h < n)
    (hne : (h + 1) % n ≠ t) (buf : List (Option α)) :
    ringAbs t ((h + 1) % n) n buf = ringAbs t h n buf ++ [buf.getD h none] := by
  unfold ringAbs
  rw [pos_succ_h ht hh hne, List.range_succ, List.map_append]
  congr 1
  simp only [List.map_cons, List.map_nil]
  rw [idx_pos ht hh]

theorem ringAbs_set_outside {α : Type} {t h n j : Nat} (ht : t < n) (hh : h < n)
    (hout : pos t n h ≤ pos t n j) (buf : List (Option α)) (x : Option α) :
    ringAbs t h n (buf.set j x) = ringAbs t h n buf := by
  unfold ringAbs
  have hpl := pos_lt ht hh
  refine List.map_congr_left (fun i hi => ?_)
  rw [List.mem_range] at hi
  apply getD_set_ne
  intro hcontra
  have hip : pos t n j = i := by rw [hcontra, pos_idx ht (by omega)]
  omega

/-! ## The wraparound computations are modular arithmetic -/

theorem boundedAdvance_eq_mod {i cap : Nat} (h : i < cap) :
    boundedAdvance i cap = (i + 1) % cap := by
  unfold boundedAdvance
  by_cases hc : i + 1 < cap
  · rw [if_pos hc, Nat.mul_one, Nat.mod_eq_of_lt hc]
  · have he : i + 1 = cap := by omega
    rw [if_neg hc, Nat.mul_zero, he, Nat.mod_self]

theorem segAdvance_eq_mod (i : Nat) : segAdvance i = (i + 1) % SEGMENT_SIZE := by
  have h := Nat.and_pow_two_sub_one_eq_mod (i + 1) 7
  norm_num at h
  simp only [segAdvance, MASK, SEGMENT_SIZE]
  exact h

theorem mod_eq_specAdvance {i cap : Nat} (h : i < cap) :
    (i + 1) % cap = specAdvance i cap := by
  unfold specAdvance
  exact succ_mod_of_lt h

/-! ## Occupancy transfer -/

theorem occ_push {α : Type} {t h n : Nat} {buf : List (Option α)} (ht : t < n) (hh : h < n)
    (hlen : buf.length = n) (hne : (h + 1) % n ≠ t) (v : α)
    (hocc : ∀ i, i < n → ((buf.getD i none).isSome = true ↔ inRing t h n i)) :
    ∀ i, i < n →
      (((buf.set h (some v)).getD i none).isSome = true ↔ inRing t ((h + 1) % n) n i) := by
  intro i hi
  unfold inRing at *
  rw [pos_succ_h ht hh hne]
  by_cases hc : i = h
  · subst hc
    rw [getD_set_self _ _ _ _ (by omega)]
    simp only [Option.isSome_some]
    exact ⟨fun _ => by omega, fun _ => trivial⟩
  · rw [getD_set_ne _ _ _ _ _ (Ne.symm hc), hocc i hi]
    have hpi : pos t n i ≠ pos t n h := fun he => hc (pos_inj ht hi hh he)
    omega

theorem occ_pop {α : Type} {t h n : Nat} {buf : List (Option α)} (ht : t < n) (hh : h < n)
    (hlen : buf.length = n) (hne : h ≠ t)
    (hocc : ∀ i, i < n → ((buf.getD i none).isSome = true ↔ inRing t h n i)) :
    ∀ i, i < n →
      (((buf.set t none).getD i none).isSome = true ↔ inRing ((t + 1) % n) h n i) := by
  intro i hi
  unfold inRing at *
  obtain ⟨hph, hph1⟩ := pos_succ_t ht hh hne
  by_cases hc : i = t
  · subst hc
    rw [getD_set_self _ _ _ _ (by omega), pos_succ_t_self ht]
    have hplt := pos_lt ht hh
    simp only [Option.isSome_none, Bool.false_eq_true, false_iff]
    omega
  · rw [getD_set_ne _ _ _ _ _ (Ne.symm hc), hocc i hi]
    obtain ⟨hpi, hpi1⟩ := pos_succ_t ht hi hc
    omega

/-! ## Bounded queue step lemmas -/

theorem BoundedSpsc.push_full {α : Type} (q : BoundedSpsc α) (v : α)
    (heq : boundedAdvance q.next_head q.buffer.capacity = q.tail) :
    q.push v = (Except.error v, q) := by
  simp only [BoundedSpsc.push]
  rw [if_pos heq]

theorem BoundedSpsc.push_ok {α : Type} (q : BoundedSpsc α) (v : α) (hb : BInv q)
    (hne : ¬ boundedAdvance q.next_head q.buffer.capacity = q.tail) :
    ∃ q', q.push v = (Except.ok (), q') ∧ absQ q' = absQ q ++ [some v] ∧ BInv q' ∧
      q'.buffer.capacity = q.buffer.capacity ∧ q'.tail = q.tail := by
  obtain ⟨hc2, hhn, htn, hlen, hocc⟩ := hb
  have hadv : boundedAdvance q.next_head q.buffer.capacity =
      (q.next_head + 1) % q.buffer.capacity := boundedAdvance_eq_mod hhn
  rw [hadv] at hne
  refine ⟨{ q with buffer := q.buffer.insert q.next_head v, next_head := (q.next_head + 1) % q.buffer.capacity }, ?_, ?_, ?_, rfl, rfl⟩
  · simp only [BoundedSpsc.push, hadv]
    rw [if_neg hne]
  · simp only [absQ, ArrayT.insert]
    rw [ringAbs_snoc htn hhn hne, ringAbs_set_outside htn hhn (Nat.le_refl _),
      getD_set_self _ _ _ _ (by omega)]
  · refine ⟨hc2, Nat.mod_lt _ (by omega), htn, ?_, ?_⟩
    · simp only [ArrayT.insert, List.length_set]
      exact hlen
    · simp only [ArrayT.insert]
      exact occ_push htn hhn hlen hne v hocc

theorem BoundedSpsc.pop_none {α : Type} (q : BoundedSpsc α) (heq : q.next_head = q.tail) :
    q.pop = (none, q) := by
  simp only [BoundedSpsc.pop]
  rw [if_pos heq]

theorem absQ_nil_iff {α : Type} (q : BoundedSpsc α) (hb : BInv q) :
    absQ q = [] ↔ q.next_head = q.tail := by
  obtain ⟨hc2, hhn, htn, hlen, hocc⟩ := hb
  constructor
  · intro h
    have hl := congrArg List.length h
    rw [absQ, ringAbs_length, List.length_nil] at hl
    exact (pos_eq_zero_iff htn hhn).mp hl
  · intro h
    rw [absQ, h]
    exact ringAbs_empty _ _ _

theorem BoundedSpsc.pop_some {α : Type} (q : BoundedSpsc α) (hb : BInv q)
    (hne : ¬ q.next_head = q.tail) :
    ∃ q', q.pop = (q.buffer.buffer.getD q.tail none, q') ∧
      absQ q = q.buffer.buffer.getD q.tail none :: absQ q' ∧ BInv q' ∧
      q'.buffer.capacity = q.buffer.capacity := by
  obtain ⟨hc2, hhn, htn, hlen, hocc⟩ := hb
  have hadv : boundedAdvance q.tail q.buffer.capacity =
      (q.tail + 1) % q.buffer.capacity := boundedAdvance_eq_mod htn
  have htn' : (q.tail + 1) % q.buffer.capacity < q.buffer.capacity :=
    Nat.mod_lt _ (by omega)
  refine ⟨{ q with buffer := ⟨q.buffer.buffer.set q.tail none, q.buffer.capacity⟩, tail := (q.tail + 1) % q.buffer.capacity }, ?_, ?_, ?_, rfl⟩
  · simp only [BoundedSpsc.pop, ArrayT.get, hadv]
    rw [if_neg hne]
  · simp only [absQ]
    obtain ⟨hph, hph1⟩ := pos_succ_t htn hhn hne
    have hout : pos ((q.tail + 1) % q.buffer.capacity) q.buffer.capacity q.next_head ≤
        pos ((q.tail + 1) % q.buffer.capacity) q.buffer.capacity q.tail := by
      rw [pos_succ_t_self htn]
      have := pos_lt htn hhn
      omega
    rw [ringAbs_set_outside htn' hhn hout, ringAbs_cons htn hhn hne]
  · refine ⟨hc2, hhn, htn', ?_, ?_⟩
    · simp only [List.length_set]
      exact hlen
    · exact occ_pop htn hhn hlen hne hocc

theorem BoundedSpsc.full_iff {α : Type} (q : BoundedSpsc α) (hb : BInv q) :
    boundedAdvance q.next_head q.buffer.capacity = q.tail ↔
      (absQ q).length = q.buffer.capacity - 1 := by
  obtain ⟨hc2, hhn, htn, hlen, hocc⟩ := hb
  rw [boundedAdvance_eq_mod hhn, absQ, ringAbs_length]
  exact pos_full_iff htn hhn

/-! ## Trace bookkeeping -/

@[simp] theorem pushedOk_nil {α : Type} : pushedOk ([] : List (Event α)) = [] := rfl

@[simp] theorem pushedOk_cons_ok {α : Type} (v : α) (es : List (Event α)) :
    pushedOk (Event.pushOk v :: es) = v :: pushedOk es := rfl

@[simp] theorem pushedOk_cons_full {α : Type} (v : α) (es : List (Event α)) :
    pushedOk (Event.pushFull v :: es) = pushedOk es := rfl

@[simp] theorem pushedOk_cons_some {α : Type} (v : α) (es : List (Event α)) :
    pushedOk (Event.popSome v :: es) = pushedOk es := rfl

@[simp] theorem pushedOk_cons_none {α : Type} (es : List (Event α)) :
    pushedOk (Event.popNone :: es) = pushedOk es := rfl

@[simp] theorem popped_nil {α : Type} : popped ([] : List (Event α)) = [] := rfl

@[simp] theorem popped_cons_ok {α : Type} (v : α) (es : List (Event α)) :
    popped (Event.pushOk v :: es) = popped es := rfl

@[simp] theorem popped_cons_full {α : Type} (v : α) (es : List (Event α)) :
    popped (Event.pushFull v :: es) = popped es := rfl

@[simp] theorem popped_cons_some {α : Type} (v : α) (es : List (Event α)) :
    popped (Event.popSome v :: es) = v :: popped es := rfl

@[simp] theorem popped_cons_none {α : Type} (es : List (Event α)) :
    popped (Event.popNone :: es) = popped es := rfl

/-! ## Refinement of the bounded queue by the spec-level list queue -/

theorem Rb_new {α : Type} (n : Nat) (hn : 2 ≤ n) : Rb (BoundedSpsc.new (α := α) n) [] := by
  constructor
  · refine ⟨hn, show 0 < n by omega, show 0 < n by omega,
      show (List.replicate n (none : Option α)).length = n by simp, ?_⟩
    intro i hi
    show ((List.replicate n (none : Option α)).getD i none).isSome = true ↔ inRing 0 0 n i
    rw [List.getD_eq_getElem?_getD, List.getElem?_replicate,
      if_pos (show i < n from hi)]
    simp only [Option.getD_some, Option.isSome_none, Bool.false_eq_true, false_iff]
    unfold inRing
    rw [pos_self]
    omega
  · show ringAbs 0 0 n (List.replicate n none) = List.map some []
    rw [ringAbs_empty, List.map_nil]

theorem stepB_sim {α : Type} {q : BoundedSpsc α} {l : List α} (h : Rb q l) (op : Op α) :
    (q.step op).2 = (specStepB q.buffer.capacity l op).2 ∧
    Rb (q.step op).1 (specStepB q.buffer.capacity l op).1 ∧
    (q.step op).1.buffer.capacity = q.buffer.capacity := by
  obtain ⟨hb, habs⟩ := h
  cases op with
  | push v =>
    by_cases hfull : boundedAdvance q.next_head q.buffer.capacity = q.tail
    · have hlen : l.length + 1 = q.buffer.capacity := by
        have h1 := (BoundedSpsc.full_iff q hb).mp hfull
        rw [habs, List.length_map] at h1
        have h2 := hb.1
        omega
      have hp := BoundedSpsc.push_full q v hfull
      simp only [BoundedSpsc.step, specStepB, hp, if_pos hlen]
      exact ⟨by trivial, ⟨hb, habs⟩, by trivial⟩
    · have hlen : ¬ l.length + 1 = q.buffer.capacity := by
        intro hl
        apply hfull
        rw [BoundedSpsc.full_iff q hb, habs, List.length_map]
        have h2 := hb.1
        omega
      obtain ⟨q', hq', habs', hb', hcap', _⟩ := BoundedSpsc.push_ok q v hb hfull
      simp only [BoundedSpsc.step, specStepB, hq', if_neg hlen]
      refine ⟨by trivial, ⟨hb', ?_⟩, hcap'⟩
      rw [habs', habs, List.map_append, List.map_cons, List.map_nil]
  | pop =>
    cases l with
    | nil =>
      have hempty : q.next_head = q.tail := by
        rw [← absQ_nil_iff q hb, habs]
        rfl
      have hp := BoundedSpsc.pop_none q hempty
      simp only [BoundedSpsc.step, specStepB, hp]
      exact ⟨by trivial, ⟨hb, habs⟩, by trivial⟩
    | cons v rest =>
      have hne : ¬ q.next_head = q.tail := by
        intro he
        have hnil := (absQ_nil_iff q hb).mpr he
        rw [habs] at hnil
        simp at hnil
      obtain ⟨q', hq', hdec, hb', hcap'⟩ := BoundedSpsc.pop_some q hb hne
      rw [habs] at hdec
      simp only [List.map_cons] at hdec
      injection hdec with h1 h2
      rw [← h1] at hq'
      simp only [BoundedSpsc.step, specStepB, hq']
      exact ⟨by trivial, ⟨hb', h2.symm⟩, hcap'⟩

theorem runB_sim {α : Type} {q : BoundedSpsc α} {l : List α} (h : Rb q l) (ops : List (Op α)) :
    (q.run ops).2 = (specRunB q.buffer.capacity l ops).2 ∧
    Rb (q.run ops).1 (specRunB q.buffer.capacity l ops).1 ∧
    (q.run ops).1.buffer.capacity = q.buffer.capacity := by
  induction ops generalizing q l with
  | nil => exact ⟨rfl, h, rfl⟩
  | cons op ops ih =>
    obtain ⟨he, hr, hc⟩ := stepB_sim h op
    obtain ⟨ihe, ihr, ihc⟩ := ih hr
    rw [hc] at ihe ihr ihc
    simp only [BoundedSpsc.run, specRunB]
    exact ⟨by rw [ihe, he], ihr, ihc⟩

/-! ## Spec-level FIFO accounting -/

theorem specRunB_fifo {α : Type} (cap : Nat) (ops : List (Op α)) :
    ∀ l : List α, popped (specRunB cap l ops).2 ++ (specRunB cap l ops).1 =
      l ++ pushedOk (specRunB cap l ops).2 := by
  induction ops with
  | nil => intro l; simp [specRunB]
  | cons op ops ih =>
    intro l
    cases op with
    | push v =>
      by_cases hf : l.length + 1 = cap
      · simp only [specRunB, specStepB, if_pos hf, popped_cons_full, pushedOk_cons_full]
        exact ih l
      · simp only [specRunB, specStepB, if_neg hf, popped_cons_ok, pushedOk_cons_ok]
        have hih := ih (l ++ [v])
        rw [List.append_assoc, List.singleton_append] at hih
        exact hih
    | pop =>
      cases l with
      | nil =>
        simp only [specRunB, specStepB, popped_cons_none, pushedOk_cons_none]
        exact ih []
      | cons v rest =>
        simp only [specRunB, specStepB, popped_cons_some, pushedOk_cons_some,
          List.cons_append]
        rw [ih rest]

theorem specRunB_append {α : Type} (cap : Nat) (a b : List (Op α)) :
    ∀ l : List α, specRunB cap l (a ++ b) =
      ((specRunB cap (specRunB cap l a).1 b).1,
        (specRunB cap l a).2 ++ (specRunB cap (specRunB cap l a).1 b).2) := by
  induction a with
  | nil => intro l; simp [specRunB]
  | cons op a ih =>
    intro l
    simp only [List.cons_append, specRunB, List.append_eq]
    rw [ih ((specStepB cap l op).1)]

theorem specRunB_pushes {α : Type} (cap : Nat) (vs : List α) :
    ∀ l : List α, l.length + vs.length < cap →
      specRunB cap l (vs.map Op.push) = (l ++ vs, vs.map Event.pushOk) := by
  induction vs with
  | nil => intro l h; simp [specRunB]
  | cons v vs ih =>
    intro l h
    simp only [List.length_cons] at h
    simp only [List.map_cons, specRunB, specStepB]
    rw [if_neg (show ¬ l.length + 1 = cap by omega)]
    rw [ih (l ++ [v]) (by simp; omega)]
    simp [List.append_assoc]

/-! ## Segment step lemmas -/

theorem segPush_full {α : Type} (s : Segment α) (v : α)
    (heq : segAdvance s.next_head = s.tail) : s.push v = (Except.error v, s) := by
  simp only [Segment.push]
  rw [if_pos heq]

theorem segPush_ok {α : Type} (s : Segment α) (v : α) (hs : SegOk s)
    (hne : ¬ segAdvance s.next_head = s.tail) :
    ∃ s', s.push v = (Except.ok (), s') ∧ absSeg s' = absSeg s ++ [some v] ∧ SegOk s' := by
  obtain ⟨hh, ht, hlen⟩ := hs
  have hadv : segAdvance s.next_head = (s.next_head + 1) % SEGMENT_SIZE := segAdvance_eq_mod _
  rw [hadv] at hne
  refine ⟨{ s with ptr := s.ptr.set s.next_head (some v), next_head := (s.next_head + 1) % SEGMENT_SIZE }, ?_, ?_, ?_⟩
  · simp only [Segment.push, hadv]
    rw [if_neg hne]
  · simp only [absSeg]
    rw [ringAbs_snoc ht hh hne, ringAbs_set_outside ht hh (Nat.le_refl _),
      getD_set_self _ _ _ _ (by omega)]
  · exact ⟨Nat.mod_lt _ (by omega), ht, by simp [hlen]⟩

theorem segPop_none {α : Type} (s : Segment α) (heq : s.next_head = s.tail) :
    s.pop = (none, s) := by
  simp only [Segment.pop]
  rw [if_pos heq]

theorem absSeg_nil_iff {α : Type} (s : Segment α) (hs : SegOk s) :
    absSeg s = [] ↔ s.next_head = s.tail := by
  obtain ⟨hh, ht, hlen⟩ := hs
  constructor
  · intro h
    have hl := congrArg List.length h
    rw [absSeg, ringAbs_length, List.length_nil] at hl
    exact (pos_eq_zero_iff ht hh).mp hl
  · intro h
    rw [absSeg, h]
    exact ringAbs_empty _ _ _

theorem segPop_some {α : Type} (s : Segment α) (hs : SegOk s)
    (hne : ¬ s.next_head = s.tail) :
    ∃ s', s.pop = (s.ptr.getD s.tail none, s') ∧
      absSeg s = s.ptr.getD s.tail none :: absSeg s' ∧ SegOk s' := by
  obtain ⟨hh, ht, hlen⟩ := hs
  have hadv : segAdvance s.tail = (s.tail + 1) % SEGMENT_SIZE := segAdvance_eq_mod _
  have htn' : (s.tail + 1) % SEGMENT_SIZE < SEGMENT_SIZE := Nat.mod_lt _ (by omega)
  refine ⟨{ s with ptr := s.ptr.set s.tail none, tail := (s.tail + 1) % SEGMENT_SIZE }, ?_, ?_, ?_⟩
  · simp only [Segment.pop, hadv]
    rw [if_neg hne]
  · simp only [absSeg]
    obtain ⟨hph, hph1⟩ := pos_succ_t ht hh hne
    have hout : pos ((s.tail + 1) % SEGMENT_SIZE) SEGMENT_SIZE s.next_head ≤
        pos ((s.tail + 1) % SEGMENT_SIZE) SEGMENT_SIZE s.tail := by
      rw [pos_succ_t_self ht]
      have := pos_lt ht hh
      omega
    rw [ringAbs_set_outside htn' hh hout, ringAbs_cons ht hh hne]
  · exact ⟨hh, htn', by simp [hlen]⟩

theorem absSeg_new {α : Type} : absSeg (Segment.new (α := α)) = [] :=
  ringAbs_empty 0 SEGMENT_SIZE _

theorem segPush_fresh {α : Type} (v : α) :
    ∃ s', Segment.link_and_push v = (Except.ok (), s') ∧ absSeg s' = [some v] ∧ SegOk s' := by
  have hs : SegOk (Segment.new (α := α)) :=
    ⟨(by decide : (0:Nat) < SEGMENT_SIZE), (by decide : (0:Nat) < SEGMENT_SIZE),
      by simp [Segment.new]⟩
  have hne : ¬ segAdvance (Segment.new (α := α)).next_head = (Segment.new (α := α)).tail :=
    (by decide : ¬ segAdvance 0 = (0:Nat))
  obtain ⟨s', h1, h2, h3⟩ := segPush_ok Segment.new v hs hne
  refine ⟨s', h1, ?_, h3⟩
  rw [h2, absSeg_new, List.nil_append]

/-! ## Unbounded queue step lemmas -/

theorem UInv_new {α : Type} : UInv (RawSpsc.new (α := α)) := by
  refine ⟨by simp [RawSpsc.new], ?_, ?_⟩
  · intro s hs
    simp only [RawSpsc.new, List.mem_singleton] at hs
    subst hs
    exact ⟨(by decide : (0:Nat) < SEGMENT_SIZE), (by decide : (0:Nat) < SEGMENT_SIZE),
      by simp [Segment.new]⟩
  · intro s hs
    simp [RawSpsc.new] at hs

theorem rawPush_sim {α : Type} (q : RawSpsc α) (v : α) (hu : UInv q) :
    absU (q.push v) = absU q ++ [some v] ∧ UInv (q.push v) := by
  obtain ⟨hne, hok, htl⟩ := hu
  rcases List.eq_nil_or_concat' q.segs with hcase | ⟨init, last, hcase⟩
  · exact absurd hcase hne
  · have hlast : q.segs.getLast? = some last := by
      rw [hcase]; exact List.getLast?_concat _
    have hdrop : q.segs.dropLast = init := by
      rw [hcase]; exact List.dropLast_concat
    have hlastOk : SegOk last := hok last (by rw [hcase]; simp)
    by_cases hfull : segAdvance last.next_head = last.tail
    · have hp := segPush_full last v hfull
      obtain ⟨s', h1, h2, h3⟩ := segPush_fresh (α := α) v
      have hpush : q.push v = ⟨init ++ [last, s']⟩ := by
        simp only [RawSpsc.push, hlast, hp, h1, hdrop]
      rw [hpush]
      constructor
      · simp [absU, hcase, h2, List.append_assoc]
      · refine ⟨by simp, ?_, ?_⟩
        · intro s hs
          simp only [List.mem_append, List.mem_cons, List.mem_singleton] at hs
          rcases hs with h | h | h | h
          · exact hok s (by rw [hcase]; simp [h])
          · subst h; exact hlastOk
          · subst h; exact h3
          · simp at h
        · cases init with
          | nil =>
            intro s hs
            simp only [List.nil_append, List.tail_cons, List.mem_singleton] at hs
            subst hs
            rw [h2]
            simp
          | cons a as =>
            intro s hs
            simp only [List.cons_append, List.tail_cons] at hs
            rcases List.mem_append.mp hs with h | h
            · exact htl s (by rw [hcase]; simp [h])
            · simp only [List.mem_cons, List.mem_singleton] at h
              rcases h with h | h | h
              · subst h
                exact htl s (by rw [hcase]; simp)
              · subst h
                rw [h2]
                simp
              · simp at h
    · obtain ⟨s', h1, h2, h3⟩ := segPush_ok last v hlastOk hfull
      have hpush : q.push v = ⟨init ++ [s']⟩ := by
        simp only [RawSpsc.push, hlast, h1, hdrop]
      rw [hpush]
      constructor
      · simp [absU, hcase, h2, List.append_assoc]
      · refine ⟨by simp, ?_, ?_⟩
        · intro s hs
          simp only [List.mem_append, List.mem_singleton] at hs
          rcases hs with h | h
          · exact hok s (by rw [hcase]; simp [h])
          · subst h; exact h3
        · cases init with
          | nil =>
            intro s hs
            simp at hs
          | cons a as =>
            intro s hs
            simp only [List.cons_append, List.tail_cons] at hs
            rcases List.mem_append.mp hs with h | h
            · exact htl s (by rw [hcase]; simp [h])
            · simp only [List.mem_singleton] at h
              subst h
              rw [h2]
              simp

theorem Ru_new {α : Type} : Ru (RawSpsc.new (α := α)) [] := by
  refine ⟨UInv_new, ?_⟩
  simp [absU, RawSpsc.new, absSeg_new]

theorem rawPop_nil {α : Type} (q : RawSpsc α) (h : Ru q []) : q.pop = (none, q) := by
  obtain ⟨⟨hne, hok, htl⟩, habs⟩ := h
  cases hsegs : q.segs with
  | nil => exact absurd hsegs hne
  | cons hseg rest =>
    have hok0 : SegOk hseg := hok hseg (by rw [hsegs]; simp)
    simp only [absU, hsegs, List.map_cons, List.flatten_cons, List.map_nil] at habs
    rw [List.append_eq_nil] at habs
    obtain ⟨h1, h2⟩ := habs
    cases rest with
    | cons s2 rest2 =>
      exfalso
      simp only [List.map_cons, List.flatten_cons] at h2
      rw [List.append_eq_nil] at h2
      exact htl s2 (by rw [hsegs]; simp) h2.1
    | nil =>
      have heq : hseg.next_head = hseg.tail := (absSeg_nil_iff hseg hok0).mp h1
      have hpop0 : hseg.pop = (none, hseg) := segPop_none hseg heq
      simp only [RawSpsc.pop, hsegs, hpop0]

theorem rawPop_cons {α : Type} (q : RawSpsc α) (v : α) (l : List α) (h : Ru q (v :: l)) :
    ∃ q', q.pop = (some v, q') ∧ Ru q' l := by
  obtain ⟨⟨hne, hok, htl⟩, habs⟩ := h
  cases hsegs : q.segs with
  | nil => exact absurd hsegs hne
  | cons hseg rest =>
    have hok0 : SegOk hseg := hok hseg (by rw [hsegs]; simp)
    simp only [absU, hsegs, List.map_cons, List.flatten_cons] at habs
    by_cases hemp : hseg.next_head = hseg.tail
    · have h1 : absSeg hseg = [] := (absSeg_nil_iff hseg hok0).mpr hemp
      rw [h1, List.nil_append] at habs
      cases rest with
      | nil => simp at habs
      | cons s2 rest2 =>
        have hok2 : SegOk s2 := hok s2 (by rw [hsegs]; simp)
        have hne2 : absSeg s2 ≠ [] := htl s2 (by rw [hsegs]; simp)
        have hne2' : ¬ s2.next_head = s2.tail :=
          fun he => hne2 ((absSeg_nil_iff s2 hok2).mpr he)
        obtain ⟨s2', hp2, hdec2, hok2'⟩ := segPop_some s2 hok2 hne2'
        simp only [List.map_cons, List.flatten_cons] at habs
        rw [hdec2] at habs
        simp only [List.map_cons, List.cons_append] at habs
        injection habs with hv htail2
        rw [hv] at hp2
        have hpop0 : hseg.pop = (none, hseg) := segPop_none hseg hemp
        refine ⟨⟨s2' :: rest2⟩, ?_, ⟨?_, ?_, ?_⟩, ?_⟩
        · simp only [RawSpsc.pop, hsegs, hpop0, hp2]
        · simp
        · intro s hs
          simp only [List.mem_cons] at hs
          rcases hs with h | h
          · subst h; exact hok2'
          · exact hok s (by rw [hsegs]; simp [h])
        · intro s hs
          simp only [List.tail_cons] at hs
          exact htl s (by rw [hsegs]; simp [hs])
        · simp only [absU, List.map_cons, List.flatten_cons]
          exact htail2
    · obtain ⟨s1', hp1, hdec1, hok1'⟩ := segPop_some hseg hok0 hemp
      rw [hdec1] at habs
      simp only [List.cons_append] at habs
      injection habs with hv htail2
      rw [hv] at hp1
      refine ⟨⟨s1' :: rest⟩, ?_, ⟨?_, ?_, ?_⟩, ?_⟩
      · simp only [RawSpsc.pop, hsegs, hp1]
      · simp
      · intro s hs
        simp only [List.mem_cons] at hs
        rcases hs with h | h
        · subst h; exact hok1'
        · exact hok s (by rw [hsegs]; simp [h])
      · intro s hs
        simp only [List.tail_cons] at hs
        exact htl s (by rw [hsegs]; simp [hs])
      · simp only [absU, List.map_cons, List.flatten_cons]
        exact htail2

theorem stepU_sim {α : Type} {q : RawSpsc α} {l : List α} (h : Ru q l) (op : Op α) :
    (q.step op).2 = (specStepU l op).2 ∧ Ru (q.step op).1 (specStepU l op).1 := by
  cases op with
  | push v =>
    obtain ⟨hu, habs⟩ := h
    obtain ⟨ha, hu'⟩ := rawPush_sim q v hu
    simp only [RawSpsc.step, specStepU]
    refine ⟨by trivial, hu', ?_⟩
    rw [ha, habs, List.map_append, List.map_cons, List.map_nil]
  | pop =>
    cases l with
    | nil =>
      have hp := rawPop_nil q h
      simp only [RawSpsc.step, specStepU, hp]
      exact ⟨by trivial, h⟩
    | cons v rest =>
      obtain ⟨q', hp, hr⟩ := rawPop_cons q v rest h
      simp only [RawSpsc.step, specStepU, hp]
      exact ⟨by trivial, hr⟩

theorem runU_sim {α : Type} {q : RawSpsc α} {l : List α} (h : Ru q l) (ops : List (Op α)) :
    (q.run ops).2 = (specRunU l ops).2 ∧ Ru (q.run ops).1 (specRunU l ops).1 := by
  induction ops generalizing q l with
  | nil => exact ⟨rfl, h⟩
  | cons op ops ih =>
    obtain ⟨he, hr⟩ := stepU_sim h op
    obtain ⟨ihe, ihr⟩ := ih hr
    simp only [RawSpsc.run, specRunU]
    exact ⟨by rw [ihe, he], ihr⟩

/-! ## Spec-level lemmas for the unbounded queue -/

theorem specRunU_fifo {α : Type} (ops : List (Op α)) :
    ∀ l : List α, popped (specRunU l ops).2 ++ (specRunU l ops).1 =
      l ++ pushedOk (specRunU l ops).2 := by
  induction ops with
  | nil => intro l; simp [specRunU]
  | cons op ops ih =>
    intro l
    cases op with
    | push v =>
      simp only [specRunU, specStepU, popped_cons_ok, pushedOk_cons_ok]
      have hih := ih (l ++ [v])
      rw [List.append_assoc, List.singleton_append] at hih
      exact hih
    | pop =>
      cases l with
      | nil =>
        simp only [specRunU, specStepU, popped_cons_none, pushedOk_cons_none]
        exact ih []
      | cons v rest =>
        simp only [specRunU, specStepU, popped_cons_some, pushedOk_cons_some,
          List.cons_append]
        rw [ih rest]

theorem specRunU_append {α : Type} (a b : List (Op α)) :
    ∀ l : List α, specRunU l (a ++ b) =
      ((specRunU (specRunU l a).1 b).1,
        (specRunU l a).2 ++ (specRunU (specRunU l a).1 b).2) := by
  induction a with
  | nil => intro l; simp [specRunU]
  | cons op a ih =>
    intro l
    simp only [List.cons_append, specRunU, List.append_eq]
    rw [ih ((specStepU l op).1)]

theorem specRunU_pushes {α : Type} (vs : List α) :
    ∀ l : List α, specRunU l (vs.map Op.push) = (l ++ vs, vs.map Event.pushOk) := by
  induction vs with
  | nil => intro l; simp [specRunU]
  | cons v vs ih =>
    intro l
    simp only [List.map_cons, specRunU, specStepU]
    rw [ih (l ++ [v])]
    simp [List.append_assoc]

theorem specRunU_pops {α : Type} (l : List α) :
    specRunU l (List.replicate l.length Op.pop) = ([], l.map Event.popSome) := by
  induction l with
  | nil => simp [specRunU]
  | cons v rest ih =>
    simp only [List.length_cons, List.replicate_succ, specRunU, specStepU, List.map_cons]
    rw [ih]

/-! ## The drop loop walks exactly the live ring range -/

theorem dropLoop_eq {α : Type} (buf : List (Option α)) {hd cap : Nat} (hh : hd < cap) :
    ∀ fuel t, t < cap → pos t cap hd ≤ fuel →
      BoundedSpsc.dropLoop buf hd cap t fuel = ringAbs t hd cap buf := by
  intro fuel
  induction fuel with
  | zero =>
    intro t ht hf
    have h0 : pos t cap hd = 0 := by omega
    have he : hd = t := (pos_eq_zero_iff ht hh).mp h0
    subst he
    simp [BoundedSpsc.dropLoop, ringAbs_empty]
  | succ fuel ih =>
    intro t ht hf
    by_cases hc : t = hd
    · subst hc
      simp [BoundedSpsc.dropLoop, ringAbs_empty]
    · have hne : hd ≠ t := fun he => hc he.symm
      obtain ⟨hp, hp1⟩ := pos_succ_t ht hh hne
      rw [show BoundedSpsc.dropLoop buf hd cap t (fuel + 1) =
          buf.getD t none :: BoundedSpsc.dropLoop buf hd cap (boundedAdvance t cap) fuel from
        by simp [BoundedSpsc.dropLoop, hc]]
      rw [boundedAdvance_eq_mod ht]
      rw [ih ((t + 1) % cap) (Nat.mod_lt _ (by omega)) (by omega)]
      exact (ringAbs_cons ht hh hne buf).symm

theorem dropDrained_eq_absQ {α : Type} (q : BoundedSpsc α) (hb : BInv q) :
    BoundedSpsc.dropDrained q = absQ q := by
  obtain ⟨hc2, hhn, htn, hlen, hocc⟩ := hb
  exact dropLoop_eq q.buffer.buffer hhn q.buffer.capacity q.tail htn
    (Nat.le_of_lt (pos_lt htn hhn))

/-! ## Claim theorems -/

/-- Claim C3 (counterexample): the claimed scenario is false on the code: on
a bounded queue of capacity 2 the second push(42) already returns Full
(capacity 2 admits only one resident value, since one slot is sacrificed to
distinguish empty from full); the actual trace is
`[pushOk 42, pushFull 42, pushFull 99, popSome 42, popNone, popNone]`. -/
theorem bounded_concrete_scenario_counterexample :
    ¬ ((BoundedSpsc.new (α := Nat) 2).run
        [Op.push 42, Op.push 42, Op.push 99, Op.pop, Op.pop, Op.pop]).2 =
      [Event.pushOk 42, Event.pushOk 42, Event.pushFull 99,
        Event.popSome 42, Event.popSome 42, Event.popNone] := by
  decide

/-- Claim C3 (amended): the stated scenario holds on a bounded queue of
capacity 3 (because one slot is permanently sacrificed, a capacity-C queue
holds at most C-1 values): push(42) succeeds; a second push(42) succeeds;
push(99) returns Full handing 99 back; then pop() returns 42, pop() returns
42 again, and a third pop() reports empty.  On the capacity-2 queue the
actual trace is also recorded here. -/
theorem bounded_concrete_scenario :
    ((BoundedSpsc.new (α := Nat) 3).run
        [Op.push 42, Op.push 42, Op.push 99, Op.pop, Op.pop, Op.pop]).2 =
      [Event.pushOk 42, Event.pushOk 42, Event.pushFull 99,
        Event.popSome 42, Event.popSome 42, Event.popNone] ∧
    ((BoundedSpsc.new (α := Nat) 2).run
        [Op.push 42, Op.push 42, Op.push 99, Op.pop, Op.pop, Op.pop]).2 =
      [Event.pushOk 42, Event.pushFull 42, Event.pushFull 99,
        Event.popSome 42, Event.popNone, Event.popNone] := by
  decide

/-- Claim C4: whenever a bounded push returns Full, it returns the exact
value it was given, unchanged, and the queue state (`next_head`, `tail` and
every stored slot) is identical to its state before the call, so subsequent
pops are unaffected by the failed push. -/
theorem push_full_atomic {α : Type} (q : BoundedSpsc α) (v w : α) (q' : BoundedSpsc α)
    (h : q.push v = (Except.error w, q')) : w = v ∧ q' = q := by
  by_cases hc : boundedAdvance q.next_head q.buffer.capacity = q.tail
  · rw [BoundedSpsc.push_full q v hc] at h
    injection h with h1 h2
    injection h1 with h3
    exact ⟨h3.symm, h2.symm⟩
  · simp only [BoundedSpsc.push] at h
    rw [if_neg hc] at h
    injection h with h1 h2
    exact Except.noConfusion h1

theorem push_full_atomic_witness :
    (((BoundedSpsc.new (α := Nat) 2).push 7).2.push 9 =
      (Except.error 9, ((BoundedSpsc.new (α := Nat) 2).push 7).2)) ∧
    (9 = 9 ∧
      ((BoundedSpsc.new (α := Nat) 2).push 7).2 = ((BoundedSpsc.new (α := Nat) 2).push 7).2) :=
  ⟨by rfl, push_full_atomic _ 9 9 _ (by rfl)⟩

/-- Claim C5: unbounded push is total: for every invariant-satisfying state
and every value, `RawSpsc::push` inserts the value (it has no failure
result), and the push performed inside `link_and_push` on a freshly
allocated segment always succeeds (a fresh segment is never full), so the
discarded result there never hides a lost value. -/
theorem unbounded_push_total {α : Type} (q : RawSpsc α) (v : α) (hu : UInv q) :
    absU (q.push v) = absU q ++ [some v] ∧ UInv (q.push v) ∧
      (Segment.link_and_push v).1 = Except.ok () := by
  obtain ⟨ha, hu'⟩ := rawPush_sim q v hu
  obtain ⟨s', h1, _, _⟩ := segPush_fresh (α := α) v
  exact ⟨ha, hu', by rw [h1]⟩

theorem unbounded_push_total_witness :
    UInv (RawSpsc.new (α := Nat)) ∧
    (absU ((RawSpsc.new (α := Nat)).push 5) = absU (RawSpsc.new (α := Nat)) ++ [some 5] ∧
      UInv ((RawSpsc.new (α := Nat)).push 5) ∧
      (Segment.link_and_push (5 : Nat)).1 = Except.ok ()) :=
  ⟨UInv_new, unbounded_push_total _ 5 UInv_new⟩

/-- Claim C7: dropping a bounded queue destructs exactly the slots from the
current `tail` up to (excluding) `next_head` in ring order, i.e. exactly the
live (pushed but not yet popped) values and no others; concretely, a
capacity-4 queue with 2 pushed and 0 popped items destructs exactly those
2 items. -/
theorem drop_drains_live {α : Type} (q : BoundedSpsc α) (hb : BInv q) (x y : α) :
    BoundedSpsc.dropDrained q = absQ q ∧
    BoundedSpsc.dropDrained ((((BoundedSpsc.new (α := α) 4).push x).2.push y).2) =
      [some x, some y] := by
  refine ⟨dropDrained_eq_absQ q hb, ?_⟩
  rfl

theorem drop_drains_live_witness :
    BInv ((((BoundedSpsc.new (α := Nat) 4).push 8).2.push 9).2) ∧
    (BoundedSpsc.dropDrained ((((BoundedSpsc.new (α := Nat) 4).push 8).2.push 9).2) =
        absQ ((((BoundedSpsc.new (α := Nat) 4).push 8).2.push 9).2) ∧
      BoundedSpsc.dropDrained ((((BoundedSpsc.new (α := Nat) 4).push 8).2.push 9).2) =
        [some 8, some 9]) :=
  ⟨by decide, drop_drains_live _ (by decide) 8 9⟩

/-- Claim C8: the branch-free wraparounds are exactly a modulo: for every
`i < capacity`, `(i+1) * ((i+1) < capacity)` equals `(i+1) % capacity`, and
for every `i < 128`, `(i+1) & 0x7F` equals `(i+1) % 128`; both equal the
spec's reference definition (wrap to 0 exactly when `i+1 = capacity`). -/
theorem advance_is_mod :
    (∀ i cap : Nat, i < cap →
        boundedAdvance i cap = (i + 1) % cap ∧ boundedAdvance i cap = specAdvance i cap) ∧
    (∀ i : Nat, i < SEGMENT_SIZE →
        segAdvance i = (i + 1) % SEGMENT_SIZE ∧ segAdvance i = specAdvance i SEGMENT_SIZE) := by
  constructor
  · intro i cap h
    have h1 := boundedAdvance_eq_mod h
    exact ⟨h1, by rw [h1, mod_eq_specAdvance h]⟩
  · intro i h
    have h1 := segAdvance_eq_mod i
    exact ⟨h1, by rw [h1, mod_eq_specAdvance h]⟩

theorem advance_is_mod_witness :
    (3 < 4 ∧ boundedAdvance 3 4 = (3 + 1) % 4 ∧ boundedAdvance 3 4 = specAdvance 3 4) ∧
    (127 < SEGMENT_SIZE ∧ segAdvance 127 = (127 + 1) % SEGMENT_SIZE ∧
      segAdvance 127 = specAdvance 127 SEGMENT_SIZE) :=
  ⟨⟨by decide, advance_is_mod.1 3 4 (by decide)⟩, ⟨by decide, advance_is_mod.2 127 (by decide)⟩⟩

/-- Claim C1: FIFO delivery for both queues.  For every operation sequence
run from the initial state, the popped values followed by the remaining live
values are exactly the successfully pushed values, in order (so the n-th
successful pop returns the n-th successfully pushed value, with no loss,
duplication or reordering); in particular, pushing `3 * SEGMENT_SIZE`
values into the unbounded queue with no interleaved pops and then popping
them all yields exactly the original sequence. -/
theorem fifo_refinement {α : Type} (n : Nat) (hn : 2 ≤ n) (ops opsU : List (Op α))
    (vs : List α) (_hvs : vs.length = 3 * SEGMENT_SIZE) :
    ((popped ((BoundedSpsc.new (α := α) n).run ops).2).map some ++
        absQ ((BoundedSpsc.new (α := α) n).run ops).1 =
      (pushedOk ((BoundedSpsc.new (α := α) n).run ops).2).map some) ∧
    ((popped ((RawSpsc.new (α := α)).run opsU).2).map some ++
        absU ((RawSpsc.new (α := α)).run opsU).1 =
      (pushedOk ((RawSpsc.new (α := α)).run opsU).2).map some) ∧
    ((RawSpsc.new (α := α)).run (vs.map Op.push ++ List.replicate vs.length Op.pop)).2 =
      vs.map Event.pushOk ++ vs.map Event.popSome := by
  refine ⟨?_, ?_, ?_⟩
  · obtain ⟨he, ⟨hb, habs⟩, hc⟩ := runB_sim (Rb_new n hn) ops
    rw [he, habs]
    have hf := specRunB_fifo ((BoundedSpsc.new (α := α) n).buffer.capacity) ops []
    rw [List.nil_append] at hf
    have hm := congrArg (List.map some) hf
    rw [List.map_append] at hm
    exact hm
  · obtain ⟨he, hu, habs⟩ := runU_sim (Ru_new (α := α)) opsU
    rw [he, habs]
    have hf := specRunU_fifo opsU []
    rw [List.nil_append] at hf
    have hm := congrArg (List.map some) hf
    rw [List.map_append] at hm
    exact hm
  · obtain ⟨he, _⟩ := runU_sim (Ru_new (α := α))
      (vs.map Op.push ++ List.replicate vs.length Op.pop)
    rw [he, specRunU_append]
    rw [specRunU_pushes vs []]
    simp only [List.nil_append]
    rw [specRunU_pops vs]

theorem fifo_refinement_witness :
    2 ≤ 2 ∧ (List.range (3 * SEGMENT_SIZE)).length = 3 * SEGMENT_SIZE ∧
    (((popped ((BoundedSpsc.new (α := Nat) 2).run []).2).map some ++
        absQ ((BoundedSpsc.new (α := Nat) 2).run []).1 =
      (pushedOk ((BoundedSpsc.new (α := Nat) 2).run []).2).map some) ∧
    ((popped ((RawSpsc.new (α := Nat)).run []).2).map some ++
        absU ((RawSpsc.new (α := Nat)).run []).1 =
      (pushedOk ((RawSpsc.new (α := Nat)).run []).2).map some) ∧
    ((RawSpsc.new (α := Nat)).run
        ((List.range (3 * SEGMENT_SIZE)).map Op.push ++
          List.replicate (List.range (3 * SEGMENT_SIZE)).length Op.pop)).2 =
      (List.range (3 * SEGMENT_SIZE)).map Event.pushOk ++
        (List.range (3 * SEGMENT_SIZE)).map Event.popSome) :=
  ⟨by decide, by simp, fifo_refinement 2 (by decide) [] [] _ (by simp)⟩

/-- Claim C2: for every bounded queue of capacity `n ≥ 2`, starting empty,
exactly `n - 1` consecutive pushes succeed and the `n`-th push returns Full;
after one pop drains one item, exactly one more push succeeds before Full is
returned again (one slot is permanently sacrificed to distinguish empty from
full). -/
theorem bounded_capacity_boundary {α : Type} (n : Nat) (hn : 2 ≤ n) (v0 x w u : α)
    (vs' : List α) (hlen : vs'.length + 2 = n) :
    ((BoundedSpsc.new (α := α) n).run
        ((v0 :: vs').map Op.push ++ [Op.push x, Op.pop, Op.push w, Op.push u])).2 =
      (v0 :: vs').map Event.pushOk ++
        [Event.pushFull x, Event.popSome v0, Event.pushOk w, Event.pushFull u] := by
  obtain ⟨he, -, -⟩ := runB_sim (Rb_new n hn) _
  rw [he]
  rw [show (BoundedSpsc.new (α := α) n).buffer.capacity = n from rfl]
  rw [specRunB_append]
  rw [specRunB_pushes n (v0 :: vs') [] (by simp; omega)]
  simp only [List.nil_append]
  have s1 : specStepB n (v0 :: vs') (Op.push x) = (v0 :: vs', Event.pushFull x) := by
    simp only [specStepB]
    rw [if_pos (show (v0 :: vs').length + 1 = n by simp; omega)]
  have s2 : specStepB n (v0 :: vs') (Op.pop (α := α)) = (vs', Event.popSome v0) := rfl
  have s3 : specStepB n vs' (Op.push w) = (vs' ++ [w], Event.pushOk w) := by
    simp only [specStepB]
    rw [if_neg (show ¬ vs'.length + 1 = n by omega)]
  have s4 : specStepB n (vs' ++ [w]) (Op.push u) = (vs' ++ [w], Event.pushFull u) := by
    simp only [specStepB]
    rw [if_pos (show (vs' ++ [w]).length + 1 = n by simp; omega)]
  simp only [specRunB, s1, s2, s3, s4]

theorem bounded_capacity_boundary_witness :
    2 ≤ 2 ∧ ([] : List Nat).length + 2 = 2 ∧
    ((BoundedSpsc.new (α := Nat) 2).run
        (((1 : Nat) :: []).map Op.push ++ [Op.push 2, Op.pop, Op.push 3, Op.push 4])).2 =
      ((1 : Nat) :: []).map Event.pushOk ++
        [Event.pushFull 2, Event.popSome 1, Event.pushOk 3, Event.pushFull 4] :=
  ⟨by decide, by decide, bounded_capacity_boundary 2 (by decide) 1 2 3 4 [] (by decide)⟩

/-- Claim C6: unbounded pop on an empty head segment: if `head == tail`
(a single segment in the chain) the pop returns nothing and the head segment
is retained unchanged; otherwise the head segment is freed, `head` advances
to its next link, and the pop is retried exactly once on the new head
segment (so it terminates in at most one further step); in every
invariant-satisfying (reachable) state that retried pop returns a value,
because a linked segment is never the empty tail. -/
theorem unbounded_pop_advance {α : Type} :
    (∀ (q : RawSpsc α) (s : Segment α), q.segs = [s] → (Segment.pop s).1 = none →
        q.pop = (none, q)) ∧
    (∀ (q : RawSpsc α) (s s2 : Segment α) (rest : List (Segment α)),
        q.segs = s :: s2 :: rest → (Segment.pop s).1 = none →
        q.pop = ((Segment.pop s2).1, ⟨(Segment.pop s2).2 :: rest⟩)) ∧
    (∀ (q : RawSpsc α) (l : List α) (s s2 : Segment α) (rest : List (Segment α)),
        Ru q l → q.segs = s :: s2 :: rest → (Segment.pop s).1 = none →
        ((Segment.pop s2).1).isSome = true) := by
  refine ⟨?_, ?_, ?_⟩
  · intro q s hsegs hpop
    rcases hps : Segment.pop s with ⟨r1, s'⟩
    rw [hps] at hpop
    obtain rfl : r1 = none := hpop
    simp only [RawSpsc.pop, hsegs, hps]
  · intro q s s2 rest hsegs hpop
    rcases hps : Segment.pop s with ⟨r1, s'⟩
    rw [hps] at hpop
    obtain rfl : r1 = none := hpop
    simp only [RawSpsc.pop, hsegs, hps]
  · intro q l s s2 rest hru hsegs hpop
    obtain ⟨⟨hne, hok, htl⟩, habs⟩ := hru
    have hok1 : SegOk s := hok s (by rw [hsegs]; simp)
    have hok2 : SegOk s2 := hok s2 (by rw [hsegs]; simp)
    have hne2 : absSeg s2 ≠ [] := htl s2 (by rw [hsegs]; simp)
    have hne2' : ¬ s2.next_head = s2.tail := fun he => hne2 ((absSeg_nil_iff s2 hok2).mpr he)
    obtain ⟨s2', hp2, hdec2, -⟩ := segPop_some s2 hok2 hne2'
    have h1 : absSeg s = [] := by
      by_contra hnil
      have hsne : ¬ s.next_head = s.tail := fun he => hnil ((absSeg_nil_iff s hok1).mpr he)
      obtain ⟨s1', hp1, hdec1, -⟩ := segPop_some s hok1 hsne
      have hg : s.ptr.getD s.tail none = none := by
        rw [hp1] at hpop
        exact hpop
      simp only [absU, hsegs, List.map_cons, List.flatten_cons] at habs
      rw [hdec1, hg] at habs
      simp only [List.cons_append] at habs
      cases l with
      | nil => simp at habs
      | cons a l' =>
        simp only [List.map_cons] at habs
        injection habs with hx _
        exact Option.noConfusion hx
    simp only [absU, hsegs, List.map_cons, List.flatten_cons] at habs
    rw [h1, List.nil_append, hdec2] at habs
    simp only [List.cons_append] at habs
    cases l with
    | nil => simp at habs
    | cons a l' =>
      simp only [List.map_cons] at habs
      injection habs with hx _
      rw [hp2]
      show (s2.ptr.getD s2.tail none).isSome = true
      rw [hx]
      rfl

set_option maxRecDepth 4096 in
theorem unbounded_pop_advance_witness :
    ((RawSpsc.new (α := Nat)).segs = [Segment.new] ∧
      (Segment.pop (Segment.new (α := Nat))).1 = none ∧
      (RawSpsc.new (α := Nat)).pop = (none, RawSpsc.new)) ∧
    (Ru (⟨[Segment.new, (Segment.push Segment.new 5).2]⟩ : RawSpsc Nat) [5] ∧
      (⟨[Segment.new, (Segment.push Segment.new 5).2]⟩ : RawSpsc Nat).pop =
        ((Segment.pop ((Segment.push (Segment.new (α := Nat)) 5).2)).1,
          ⟨[(Segment.pop ((Segment.push (Segment.new (α := Nat)) 5).2)).2]⟩) ∧
      ((Segment.pop ((Segment.push (Segment.new (α := Nat)) 5).2)).1).isSome = true) :=
  ⟨⟨rfl, rfl, unbounded_pop_advance.1 RawSpsc.new Segment.new rfl rfl⟩,
    ⟨by decide,
      unbounded_pop_advance.2.1 _ Segment.new ((Segment.push Segment.new 5).2) [] rfl rfl,
      unbounded_pop_advance.2.2 _ [5] Segment.new ((Segment.push Segment.new 5).2) []
        (by decide) rfl rfl⟩⟩

/-- Claim C9: index-range and occupancy invariant: for every bounded queue
with capacity `n ≥ 2`, after any sequence of push and pop calls from the
freshly constructed state, both `next_head` and `tail` lie in
`[0, capacity)`, exactly the slots in the ring range `[tail, next_head)`
hold initialized values (all inside `BInv`), the number of resident values
equals the ring distance from `tail` to `next_head`, never exceeds
`capacity - 1`, and equals pushed-minus-popped. -/
theorem bounded_invariant {α : Type} (n : Nat) (hn : 2 ≤ n) (ops : List (Op α)) :
    BInv ((BoundedSpsc.new (α := α) n).run ops).1 ∧
    ((BoundedSpsc.new (α := α) n).run ops).1.buffer.capacity = n ∧
    (absQ ((BoundedSpsc.new (α := α) n).run ops).1).length =
      pos ((BoundedSpsc.new (α := α) n).run ops).1.tail n
        ((BoundedSpsc.new (α := α) n).run ops).1.next_head ∧
    (absQ ((BoundedSpsc.new (α := α) n).run ops).1).length ≤ n - 1 ∧
    (popped ((BoundedSpsc.new (α := α) n).run ops).2).length +
        (absQ ((BoundedSpsc.new (α := α) n).run ops).1).length =
      (pushedOk ((BoundedSpsc.new (α := α) n).run ops).2).length := by
  obtain ⟨he, ⟨hb, habs⟩, hc⟩ := runB_sim (Rb_new n hn) ops
  have hcap : ((BoundedSpsc.new (α := α) n).run ops).1.buffer.capacity = n := hc
  refine ⟨hb, hcap, ?_, ?_, ?_⟩
  · simp only [absQ, ringAbs_length, hcap]
  · obtain ⟨h2, hhn, htn, hlen, -⟩ := hb
    have hp := pos_lt htn hhn
    simp only [absQ, ringAbs_length]
    omega
  · have hf := specRunB_fifo ((BoundedSpsc.new (α := α) n).buffer.capacity) ops []
    rw [List.nil_append] at hf
    have hflen := congrArg List.length hf
    rw [List.length_append] at hflen
    have habsl := congrArg List.length habs
    rw [List.length_map] at habsl
    rw [he, habsl]
    exact hflen

theorem bounded_invariant_witness :
    2 ≤ 2 ∧
    (BInv ((BoundedSpsc.new (α := Nat) 2).run [Op.push 3, Op.pop]).1 ∧
    ((BoundedSpsc.new (α := Nat) 2).run [Op.push 3, Op.pop]).1.buffer.capacity = 2 ∧
    (absQ ((BoundedSpsc.new (α := Nat) 2).run [Op.push 3, Op.pop]).1).length =
      pos ((BoundedSpsc.new (α := Nat) 2).run [Op.push 3, Op.pop]).1.tail 2
        ((BoundedSpsc.new (α := Nat) 2).run [Op.push 3, Op.pop]).1.next_head ∧
    (absQ ((BoundedSpsc.new (α := Nat) 2).run [Op.push 3, Op.pop]).1).length ≤ 2 - 1 ∧
    (popped ((BoundedSpsc.new (α := Nat) 2).run [Op.push 3, Op.pop]).2).length +
        (absQ ((BoundedSpsc.new (α := Nat) 2).run [Op.push 3, Op.pop]).1).length =
      (pushedOk ((BoundedSpsc.new (α := Nat) 2).run [Op.push 3, Op.pop]).2).length) :=
  ⟨by decide, bounded_invariant 2 (by decide) [Op.push 3, Op.pop]⟩

/-- Claim C10: degenerate capacity edge case: constructing a bounded queue
with capacity 1 is not rejected (`new` performs no check), and on the
resulting queue every push returns Err with its value (the advance of index
0 is again 0, equal to `tail`) and every pop returns None, for every value
and every call sequence; the state never changes, so the queue is
permanently both empty and full. -/
theorem capacity_one_degenerate {α : Type} (ops : List (Op α)) :
    ((BoundedSpsc.new (α := α) 1).run ops).1 = BoundedSpsc.new 1 ∧
    ((BoundedSpsc.new (α := α) 1).run ops).2 = ops.map (fun op =>
      match op with
      | Op.push v => Event.pushFull v
      | Op.pop => Event.popNone) := by
  have hstep : ∀ op : Op α, (BoundedSpsc.new (α := α) 1).step op =
      (BoundedSpsc.new 1, match op with
        | Op.push v => Event.pushFull v
        | Op.pop => Event.popNone) := by
    intro op
    cases op with
    | push v =>
      have hfull : boundedAdvance (BoundedSpsc.new (α := α) 1).next_head
          (BoundedSpsc.new (α := α) 1).buffer.capacity = (BoundedSpsc.new (α := α) 1).tail :=
        (by decide : boundedAdvance 0 1 = 0)
      simp only [BoundedSpsc.step, BoundedSpsc.push_full _ _ hfull]
    | pop =>
      have hemp : (BoundedSpsc.new (α := α) 1).next_head = (BoundedSpsc.new (α := α) 1).tail :=
        rfl
      simp only [BoundedSpsc.step, BoundedSpsc.pop_none _ hemp]
  induction ops with
  | nil => exact ⟨rfl, rfl⟩
  | cons op ops ih =>
    obtain ⟨ih1, ih2⟩ := ih
    simp only [BoundedSpsc.run, hstep, List.map_cons]
    exact ⟨ih1, by rw [ih2]⟩
